import Mathlib

/-
Shallow embedding of the metano TransporterParser
(src/src/transporterparser.py).

The Python class keeps a list self.transporters of triples
(transporter_name, flux_factor, cotransporter_name); we model that
instance state as an explicit List Rec threaded through parse.
Python floats are modelled as exact decimal rationals; none of the
properties under study depend on binary rounding.

The line regex is
    (\S*)(?:\s*([\d\.]*))?(?:\s*co\((\S*)\))?
matched with re.match (anchored at the start, prefix match).  Its
deterministic semantics, resolving the greedy backtracking by hand:
  - group 1 is the maximal run of non-whitespace characters at the
    start of the line (the following parts can always match the empty
    string, so the engine never has to shrink it);
  - the first optional non-capturing group always participates (both
    of its pieces are nullable), so group 2 is the maximal run of
    digits and dots after the maximal whitespace run that follows
    group 1; in Python a nullable optional group that matches the
    empty string yields "" for its capture, never None;
  - the second optional group requires the literal "co(", which can
    only sit immediately after the maximal whitespace run (any shorter
    run of skipped whitespace would put a whitespace character where
    the "c" must go); inside it, the greedy run of non-whitespace
    characters backtracks until a ")" follows, i.e. group 3 is the
    part of the maximal non-whitespace run after "co(" that precedes
    its last ")"; if there is no ")" in that run the whole optional
    group fails and is skipped (cotransporter absent);
  - every component is nullable, so the match as a whole never fails.
The name regex for grouping is  [^_]*_([^_]*)_  (re.match): it needs
two "_" characters and captures the text strictly between the first
and the second one; [^_]* cannot give characters back across a
literal "_", so no backtracking arises.

ASCII note: Python str.strip and the classes \s and \d also accept
some non-ASCII code points; the inputs of this file format are ASCII
and the embedding uses the ASCII ranges.
-/

/-- Characters stripped by Python str.strip and matched by the regex
class of whitespace (ASCII range). -/
def pySpace (c : Char) : Bool :=
  c = ' ' || c = '\t' || c = '\n' || c = '\r' || c = '\x0b' || c = '\x0c'

/-- Characters the \S regex class accepts. -/
def nonWS (c : Char) : Bool := !pySpace c

/-- Characters of the factor-token class: digits and the dot. -/
def facChar (c : Char) : Bool := c.isDigit || c = '.'

/-- Drop the trailing characters satisfying p (right half of strip). -/
def dropTrail (p : Char → Bool) : List Char → List Char
  | [] => []
  | c :: cs =>
    match dropTrail p cs with
    | [] => if p c then [] else [c]
    | r => c :: r

/-- Python str.strip on a list of characters. -/
def pyStrip (s : List Char) : List Char := dropTrail pySpace (s.dropWhile pySpace)

/-- The three captures of the line pattern: group 1 (name), group 2
(factor token, the empty list when the nullable group matched the
empty string) and group 3 (cotransporter, none when the co-group did
not participate). -/
structure LineGroups where
  name : List Char
  fac : List Char
  co : Option (List Char)
deriving DecidableEq

/-- Backtracking of the greedy inner run of the co-group: the longest
prefix of u whose next character inside u is a closing parenthesis;
none when u contains no closing parenthesis (then the whole optional
co-group of the pattern fails and is skipped). -/
def befLastRP : List Char → Option (List Char)
  | [] => none
  | c :: cs =>
    match befLastRP cs with
    | some v => some (c :: v)
    | none => if c = ')' then some ([] : List Char) else none

/-- Group 1 of the line pattern: the maximal non-whitespace run at
the start of the (stripped) line. -/
def nameTok (s : List Char) : List Char := s.takeWhile nonWS

/-- What follows group 1. -/
def afterName (s : List Char) : List Char := s.dropWhile nonWS

/-- Group 2 of the line pattern: the maximal run of digits and dots
after the maximal whitespace run following the name. -/
def facTok (s : List Char) : List Char :=
  ((afterName s).dropWhile pySpace).takeWhile facChar

/-- What follows group 2. -/
def afterFac (s : List Char) : List Char :=
  ((afterName s).dropWhile pySpace).dropWhile facChar

/-- Where the co-group must start: after the maximal whitespace run
following the factor token. -/
def coStart (s : List Char) : List Char := (afterFac s).dropWhile pySpace

/-- Group 3 of the line pattern: inside a literal co( ... ), the part
of the maximal non-whitespace run that precedes its last closing
parenthesis; none when the optional co-group fails to match and is
skipped. -/
def coTok (s : List Char) : Option (List Char) :=
  if (coStart s).take 3 = ['c', 'o', '('] then
    befLastRP (((coStart s).drop 3).takeWhile nonWS)
  else none

/-- re.match of line_pattern against a (stripped) line, per the
deterministic semantics derived in the header comment.  Every
component of the pattern is nullable, so the result is always some;
the Option mirrors the possibility of match failure that the Python
code guards with its AttributeError handler. -/
def lineMatch (s : List Char) : Option LineGroups :=
  some ⟨nameTok s, facTok s, coTok s⟩

/-- Python float() succeeds on a string drawn from digits and dots iff
it has at least one digit and at most one dot. -/
def floatOk (t : List Char) : Bool :=
  t.any Char.isDigit && decide (t.count '.' ≤ 1)

/-- Value of a run of decimal digits. -/
def digitsVal (ds : List Char) : Nat :=
  ds.foldl (fun a c => 10 * a + (c.toNat - 48)) 0

/-- Exact value of a factor token accepted by floatOk: integer part
plus fractional part, as a rational. -/
def floatVal (t : List Char) : ℚ :=
  let ip := t.takeWhile (fun c => c != '.')
  let fp := (t.dropWhile (fun c => c != '.')).drop 1
  mkRat (Int.ofNat (digitsVal ip * 10 ^ fp.length + digitsVal fp)) (10 ^ fp.length)

deriving instance DecidableEq for Except

/-- A parsed transporter record: (name, flux factor, cotransporter),
the optional fields None-able exactly as in the source. -/
abbrev Rec := String × Option ℚ × Option String

/-- A grouped record: a record prefixed with its derived type code. -/
abbrev GRec := String × Rec

instance : DecidableEq (List (List GRec)) :=
  letI h : DecidableEq (List GRec) := inferInstance
  List.hasDecEq

/-- What a single line can do inside parse, before the line number is
attached: badFloat carries the offending factor token (the ValueError
branch), noMatch is the AttributeError branch taken when the line
pattern fails to match. -/
inductive LineErr where
  | badFloat (tok : String)
  | noMatch
deriving DecidableEq

/-- Processing of one raw line of the file by parse: none when the
stripped line is blank or a comment, an error or a record otherwise,
following the loop body of TransporterParser.parse. -/
def lineStep (raw : List Char) : Option (Except LineErr Rec) :=
  if pyStrip raw = [] then none
  else if (pyStrip raw).head? = some '#' then none
  else
    match lineMatch (pyStrip raw) with
    | none => some (.error .noMatch)
    | some g =>
      if g.fac ≠ [] ∧ ¬ floatOk g.fac then
        some (.error (.badFloat ⟨g.fac⟩))
      else
        some (.ok (⟨g.name⟩,
          (if g.fac = [] then none else some (floatVal g.fac)),
          g.co.map (fun v => (⟨v⟩ : String))))

/-- The loop of TransporterParser.parse: lines still to process, the
1-based number of the next line, and the accumulated self.transporters
list.  On an error the loop aborts; the accumulated list (the mutated
instance state) is returned together with the error and its line
number, mirroring that the raise leaves self.transporters as the loop
left it. -/
def parseLines : List (List Char) → Nat → List Rec → List Rec × Option (LineErr × Nat)
  | [], _, acc => (acc, none)
  | ln :: rest, n, acc =>
    match lineStep ln with
    | none => parseLines rest (n + 1) acc
    | some (.error e) => (acc, some (e, n))
    | some (.ok r) => parseLines rest (n + 1) (acc ++ [r])

/-- TransporterParser.parse: the file contents as a list of lines, the
incoming instance state, and the resulting state paired with the error
raised, if any (none means parse returned the accumulated list). -/
def parse (lines : List String) (st : List Rec) : List Rec × Option (LineErr × Nat) :=
  parseLines (lines.map String.toList) 1 st

/-- re.match of name_pattern against a transporter name: some type
code when the name has the required two underscores, none otherwise
(the AttributeError branch of split_by_type). -/
def nameMatch (s : String) : Option String :=
  match s.toList.dropWhile (fun c => c != '_') with
  | '_' :: r2 =>
    match r2.dropWhile (fun c => c != '_') with
    | '_' :: _ => some ⟨r2.takeWhile (fun c => c != '_')⟩
    | _ => none
  | _ => none

/-- Lookup in the dictionary of types, modelled as an association list
in insertion order. -/
def lookupIdx (t : String) : List (String × Nat) → Option Nat
  | [] => none
  | (s, i) :: d => if s = t then some i else lookupIdx t d

/-- list_of_lists[i].append(x). -/
def addToGroup : List (List GRec) → Nat → GRec → List (List GRec)
  | [], _, _ => []
  | g :: gs, 0, x => (g ++ [x]) :: gs
  | g :: gs, i + 1, x => g :: addToGroup gs i x

/-- The loop of TransporterParser.split_by_type over the remaining
entries, carrying dict_of_types and list_of_lists; the error carries
the offending transporter name, as the raised message does. -/
def splitAux : List Rec → List (String × Nat) → List (List GRec) → Except String (List (List GRec))
  | [], _, lol => .ok lol
  | e :: rest, d, lol =>
    match nameMatch e.1 with
    | none => .error e.1
    | some t =>
      match lookupIdx t d with
      | some i => splitAux rest d (addToGroup lol i (t, e))
      | none => splitAux rest (d ++ [(t, lol.length)]) (lol ++ [[(t, e)]])

/-- TransporterParser.split_by_type on an explicit record list. -/
def split_by_type (l : List Rec) : Except String (List (List GRec)) :=
  splitAux l [] []

/-! Definitions written from the wording of the specification and of
the claims, used as comparison targets for the functions of the code. -/

/-- The type code the naming grammar derives from the name of a record. -/
def typKey (e : Rec) : Option String := nameMatch e.1

/-- The distinct type codes of a record list in the order in which
each is first encountered, those in seen excluded (spec wording:
group order is first-seen type order). -/
def newTypes (seen : List String) : List Rec → List String
  | [] => []
  | e :: rest =>
    match typKey e with
    | none => newTypes seen rest
    | some t =>
      if t ∈ seen then newTypes seen rest else t :: newTypes (t :: seen) rest

/-- The group of a type code t: the records of the list carrying t,
in input order, each prefixed with t (spec wording: intra-group order
preserved, records unchanged, prefixed with the type code). -/
def groupOf (l : List Rec) (t : String) : List GRec :=
  (l.filter (fun e => decide (typKey e = some t))).map (fun e => (t, e))

/-- The grouping the specification describes: one group per distinct
type code, groups in first-seen order. -/
def groupByTypeSpec (l : List Rec) : List (List GRec) :=
  (newTypes [] l).map (groupOf l)

/-- The text strictly between the first and the second underscore of
a name (claim wording for the derived type code). -/
def betweenUnderscores (s : String) : String :=
  ⟨((s.toList.dropWhile (fun c => c != '_')).drop 1).takeWhile (fun c => c != '_')⟩

/-- The record a line contributes, none for skipped or failing lines. -/
def recOfLine (raw : List Char) : Option Rec :=
  match lineStep raw with
  | some (.ok r) => some r
  | _ => none

/-- Whether parse aborts on this line. -/
def lineFails (raw : List Char) : Bool :=
  match lineStep raw with
  | some (.error _) => true
  | _ => false

/-- Whether parse skips this line (blank or comment after strip). -/
def skipLine (raw : List Char) : Bool :=
  decide (pyStrip raw = []) || decide ((pyStrip raw).head? = some '#')

/-- The factor token group 2 captures on this raw line. -/
def facTokOf (raw : List Char) : List Char := facTok (pyStrip raw)

/-- A line whose factor token is present but not parseable as a
float: how the claims describe the lines that make parse fail. -/
def badFactorLine (raw : List Char) : Bool :=
  !skipLine raw && !(facTokOf raw).isEmpty && !floatOk (facTokOf raw)

/-- Whether an outcome of parse is the structural syntax error. -/
def isNoMatchErr : Option (LineErr × Nat) → Bool
  | some (.noMatch, _) => true
  | _ => false

/-- The dictionary of types exactly as split_by_type builds it: the
group types in group order, enumerated with their indices from n. -/
def enumT (n : Nat) : List String → List (String × Nat)
  | [] => []
  | t :: ts => (t, n) :: enumT (n + 1) ts

/-- Each already-built group, of the type listed at its position,
extended by the records of the remaining input carrying its type. -/
def extGroups : List String → List (List GRec) → List Rec → List (List GRec)
  | t :: ts, g :: gs, l => (g ++ groupOf l t) :: extGroups ts gs l
  | _, _, _ => []

example : parse ["# comment", "trans_c_glu 1.5 co(trans_n_nh3)", "trans_n_nh3"] [] =
    ([("trans_c_glu", some (mkRat 3 2), some "trans_n_nh3"), ("trans_n_nh3", none, none)], none) := by
  decide

example : parse ["trans_c_glu abc"] [] = ([("trans_c_glu", none, none)], none) := by
  decide

example : parse ["x_y_z 1.2.3"] [] = ([], some (.badFloat "1.2.3", 1)) := by
  decide

example : nameMatch "trans_c_glu" = some "c" := by decide

example : nameMatch "a_b" = none := by decide

example : split_by_type [("a_x_1", none, none), ("b_y_2", none, none), ("c_x_3", none, none)] =
    .ok [[("x", ("a_x_1", none, none)), ("x", ("c_x_3", none, none))],
         [("y", ("b_y_2", none, none))]] := by
  decide

/-! Supporting lemmas about parse. -/

theorem dropWhile_head_false {p : Char → Bool} {l r : List Char} {c : Char}
    (h : l.dropWhile p = c :: r) : p c = false := by
  induction l with
  | nil => simp [List.dropWhile] at h
  | cons a l ih =>
    rw [List.dropWhile_cons] at h
    by_cases hp : p a
    · simp [hp] at h; exact ih h
    · simp [hp] at h; rcases h with ⟨rfl, -⟩; simpa using hp

theorem dropTrail_head {p : Char → Bool} {l r : List Char} {c : Char}
    (h : dropTrail p l = c :: r) : ∃ l0, l = c :: l0 := by
  cases l with
  | nil => simp [dropTrail] at h
  | cons a l =>
    rw [dropTrail] at h
    rcases hm : dropTrail p l with - | ⟨b, m⟩ <;> rw [hm] at h
    · by_cases hp : p a <;> simp [hp] at h
      exact ⟨l, by rw [h.1]⟩
    · rw [List.cons.injEq] at h
      exact ⟨l, by rw [h.1]⟩

theorem pyStrip_head_not_space {raw r : List Char} {c : Char}
    (h : pyStrip raw = c :: r) : pySpace c = false := by
  unfold pyStrip at h
  obtain ⟨l0, hl⟩ := dropTrail_head h
  exact dropWhile_head_false hl

/-- The master description of the parse loop: either no line fails
and every non-skipped line appends its record, or the input splits at
the first failing line, the loop returns the records accumulated
strictly before it, and the error carries the 1-based number of that line. -/
theorem parseLines_cases (lines : List (List Char)) :
    ∀ (n : Nat) (acc : List Rec),
    ((∀ l ∈ lines, lineFails l = false) ∧
      parseLines lines n acc = (acc ++ lines.filterMap recOfLine, none)) ∨
    (∃ pre ln post e, lines = pre ++ ln :: post ∧
      (∀ l ∈ pre, lineFails l = false) ∧ lineStep ln = some (.error e) ∧
      parseLines lines n acc = (acc ++ pre.filterMap recOfLine, some (e, n + pre.length))) := by
  induction lines with
  | nil =>
    intro n acc
    exact .inl ⟨by simp, by simp [parseLines]⟩
  | cons ln rest ih =>
    intro n acc
    cases h : lineStep ln with
    | none =>
      rcases ih (n + 1) acc with ⟨hf, he⟩ | ⟨pre, l2, post, e, hdec, hpre, hstep, heq⟩
      · refine .inl ⟨?_, ?_⟩
        · intro l hl
          rcases List.mem_cons.mp hl with rfl | hl
          · simp [lineFails, h]
          · exact hf l hl
        · have hr : recOfLine ln = none := by simp [recOfLine, h]
          simp [parseLines, h, he, List.filterMap_cons, hr]
      · refine .inr ⟨ln :: pre, l2, post, e, by rw [hdec, List.cons_append], ?_, hstep, ?_⟩
        · intro l hl
          rcases List.mem_cons.mp hl with rfl | hl
          · simp [lineFails, h]
          · exact hpre l hl
        · have hr : recOfLine ln = none := by simp [recOfLine, h]
          have h1 : parseLines (ln :: rest) n acc = parseLines rest (n + 1) acc := by
            simp [parseLines, h]
          have h3 : n + (ln :: pre).length = n + 1 + pre.length := by
            simp only [List.length_cons]
            omega
          rw [h1, heq, h3]
          simp [List.filterMap_cons, hr]
    | some v =>
      cases v with
      | error e =>
        refine .inr ⟨[], ln, rest, e, rfl, by simp, h, ?_⟩
        simp [parseLines, h]
      | ok r =>
        have hr : recOfLine ln = some r := by simp [recOfLine, h]
        have h1 : parseLines (ln :: rest) n acc = parseLines rest (n + 1) (acc ++ [r]) := by
          simp [parseLines, h]
        rcases ih (n + 1) (acc ++ [r]) with ⟨hf, he⟩ | ⟨pre, l2, post, e, hdec, hpre, hstep, heq⟩
        · refine .inl ⟨?_, ?_⟩
          · intro l hl
            rcases List.mem_cons.mp hl with rfl | hl
            · simp [lineFails, h]
            · exact hf l hl
          · rw [h1, he]
            simp [List.filterMap_cons, hr]
        · refine .inr ⟨ln :: pre, l2, post, e, by rw [hdec, List.cons_append], ?_, hstep, ?_⟩
          · intro l hl
            rcases List.mem_cons.mp hl with rfl | hl
            · simp [lineFails, h]
            · exact hpre l hl
          · have h3 : n + (ln :: pre).length = n + 1 + pre.length := by
              simp only [List.length_cons]
              omega
            rw [h1, heq, h3]
            simp [List.filterMap_cons, hr]

/-- Exhaustive description of what parse does with one raw line:
skipped, aborted with the bad-float error carrying the factor
token, or turned into a record built of the three captures.  The
structural noMatch error never arises, since the line pattern matches
every string. -/
theorem lineStep_char (raw : List Char) :
    (skipLine raw = true ∧ lineStep raw = none) ∨
    (skipLine raw = false ∧ badFactorLine raw = true ∧
      lineStep raw = some (.error (.badFloat ⟨facTokOf raw⟩))) ∨
    (skipLine raw = false ∧ badFactorLine raw = false ∧
      lineStep raw = some (.ok (⟨nameTok (pyStrip raw)⟩,
        (if facTokOf raw = [] then none else some (floatVal (facTokOf raw))),
        (coTok (pyStrip raw)).map (fun v => (⟨v⟩ : String))))) := by
  simp only [lineStep, badFactorLine, skipLine, facTokOf, lineMatch]
  rcases hs : pyStrip raw with - | ⟨c, cs⟩
  · left
    simp
  · by_cases hc : c = '#'
    · left
      subst hc
      simp
    · by_cases hb : facTok (c :: cs) ≠ [] ∧ ¬ floatOk (facTok (c :: cs))
      · obtain ⟨hb1, hb2⟩ := hb
        have hb2f : floatOk (facTok (c :: cs)) = false := by
          simpa using hb2
        right; left
        refine ⟨by simp [hc], ?_, ?_⟩
        · simp [hc, List.isEmpty_iff, hb1, hb2f]
        · simp [hc, hb1, hb2f]
      · right; right
        by_cases hfe : facTok (c :: cs) = []
        · exact ⟨by simp [hc], by simp [hc, List.isEmpty_iff, hfe], by simp [hc, hfe]⟩
        · have hfl : floatOk (facTok (c :: cs)) = true := by
            rcases not_and_or.mp hb with hb1 | hb2
            · exact absurd (not_not.mp hb1) hfe
            · exact not_not.mp hb2
          exact ⟨by simp [hc], by simp [hc, List.isEmpty_iff, hfe, hfl],
            by simp [hc, hfe, hfl]⟩

/-- The noMatch branch is dead: no outcome of the parse loop is the
structural syntax error, because the line pattern matches everything. -/
theorem parse_no_noMatch (lines : List (List Char)) (n : Nat) (acc : List Rec) :
    isNoMatchErr (parseLines lines n acc).2 = false := by
  rcases parseLines_cases lines n acc with ⟨-, he⟩ | ⟨pre, ln, post, e, -, -, hstep, heq⟩
  · rw [he]
    rfl
  · rw [heq]
    rcases lineStep_char ln with ⟨-, h⟩ | ⟨-, -, h⟩ | ⟨-, -, h⟩ <;> rw [h] at hstep
    · cases hstep
    · simp only [Option.some.injEq, Except.error.injEq] at hstep
      subst hstep
      rfl
    · simp at hstep

/-- A string made of at least one character is not the empty string. -/
theorem mk_ne_empty (c : Char) (l : List Char) : (⟨c :: l⟩ : String) ≠ "" := by
  intro h
  have h2 := congrArg String.data h
  simp at h2

/-- The first failing line is the first line with a bad factor token,
and the error it produces carries that token and that line number. -/
theorem parseLines_first_bad (lines : List (List Char)) :
    ∀ (n : Nat) (acc : List Rec), (∃ l ∈ lines, badFactorLine l = true) →
    ∃ pre ln post, lines = pre ++ ln :: post ∧
      (∀ l ∈ pre, badFactorLine l = false) ∧ badFactorLine ln = true ∧
      (parseLines lines n acc).2 = some (.badFloat ⟨facTokOf ln⟩, n + pre.length) := by
  induction lines with
  | nil =>
    intro n acc h
    simp at h
  | cons l0 rest ih =>
    intro n acc h
    rcases lineStep_char l0 with ⟨hskip, hstep⟩ | ⟨-, hbad, hstep⟩ | ⟨-, hbad, hstep⟩
    · have hl0 : badFactorLine l0 = false := by
        simp [badFactorLine, hskip]
      have hrest : ∃ l ∈ rest, badFactorLine l = true := by
        rcases h with ⟨l, hm, hbl⟩
        rcases List.mem_cons.mp hm with rfl | hm
        · rw [hl0] at hbl
          cases hbl
        · exact ⟨l, hm, hbl⟩
      obtain ⟨pre, ln, post, hdec, hpre, hbln, herr⟩ := ih (n + 1) acc hrest
      refine ⟨l0 :: pre, ln, post, by rw [hdec, List.cons_append], ?_, hbln, ?_⟩
      · intro l hl
        rcases List.mem_cons.mp hl with rfl | hl
        · exact hl0
        · exact hpre l hl
      · have h1 : parseLines (l0 :: rest) n acc = parseLines rest (n + 1) acc := by
          simp [parseLines, hstep]
        have h3 : n + (l0 :: pre).length = n + 1 + pre.length := by
          simp only [List.length_cons]
          omega
        rw [h1, herr, h3]
    · refine ⟨[], l0, rest, rfl, by simp, hbad, ?_⟩
      have h1 : parseLines (l0 :: rest) n acc =
          (acc, some (.badFloat ⟨facTokOf l0⟩, n)) := by
        simp [parseLines, hstep]
      rw [h1]
      simp
    · have hrest : ∃ l ∈ rest, badFactorLine l = true := by
        rcases h with ⟨l, hm, hbl⟩
        rcases List.mem_cons.mp hm with rfl | hm
        · rw [hbad] at hbl
          cases hbl
        · exact ⟨l, hm, hbl⟩
      obtain ⟨pre, ln, post, hdec, hpre, hbln, herr⟩ := ih (n + 1) _ hrest
      refine ⟨l0 :: pre, ln, post, by rw [hdec, List.cons_append], ?_, hbln, ?_⟩
      · intro l hl
        rcases List.mem_cons.mp hl with rfl | hl
        · exact hbad
        · exact hpre l hl
      · have h1 : parseLines (l0 :: rest) n acc = parseLines rest (n + 1)
            (acc ++ [(⟨nameTok (pyStrip l0)⟩,
              (if facTokOf l0 = [] then none else some (floatVal (facTokOf l0))),
              (coTok (pyStrip l0)).map (fun v => (⟨v⟩ : String)))]) := by
          simp [parseLines, hstep]
        have h3 : n + (l0 :: pre).length = n + 1 + pre.length := by
          simp only [List.length_cons]
          omega
        rw [h1, herr, h3]

/-- If a fresh parse of some input succeeds, parsing the same input
starting from any accumulated state succeeds and appends the same
records after it. -/
theorem parse_from_any_state (l : List String) (r : List Rec)
    (h : parse l [] = (r, none)) (s : List Rec) : parse l s = (s ++ r, none) := by
  rcases parseLines_cases (l.map String.toList) 1 [] with
    ⟨hf, he⟩ | ⟨pre, ln, post, e, hdec, hpre, hstep, heq⟩
  · rcases parseLines_cases (l.map String.toList) 1 s with
      ⟨-, he2⟩ | ⟨pre, ln, post, e, hdec, hpre, hstep, heq2⟩
    · unfold parse at h ⊢
      rw [he] at h
      have h3 : (l.map String.toList).filterMap recOfLine = r := by
        simpa using congrArg Prod.fst h
      rw [he2, h3]
    · have hmem : ln ∈ l.map String.toList := by
        rw [hdec]
        exact List.mem_append_right _ (List.mem_cons_self _ _)
      have hff := hf ln hmem
      simp [lineFails, hstep] at hff
  · unfold parse at h
    rw [heq] at h
    simpa using congrArg Prod.snd h

/-- C3: whenever some non-blank non-comment line of the input carries
a factor token (the maximal digits-and-dot run the line pattern
captures) that is present but not parseable as a float, parse fails,
and the error is the bad-float error carrying the factor token of the
first such line together with its 1-based line number, counting
blank and comment lines. -/
theorem parse_bad_factor_fails (lines : List String) (st : List Rec)
    (h : ∃ l ∈ lines.map String.toList, badFactorLine l = true) :
    ∃ pre ln post, lines.map String.toList = pre ++ ln :: post ∧
      (∀ l ∈ pre, badFactorLine l = false) ∧ badFactorLine ln = true ∧
      (parse lines st).2 = some (.badFloat ⟨facTokOf ln⟩, pre.length + 1) := by
  obtain ⟨pre, ln, post, hdec, hpre, hbln, herr⟩ :=
    parseLines_first_bad (lines.map String.toList) 1 st h
  refine ⟨pre, ln, post, hdec, hpre, hbln, ?_⟩
  have h3 : (1 : Nat) + pre.length = pre.length + 1 := by omega
  unfold parse
  rw [herr, h3]

/-- Witness for C3 at the concrete input of the spec family: the line
with factor token 1.2.3 in second position, after one good line. -/
theorem parse_bad_factor_fails_witness :
    ∃ pre ln post, (["x_a_1 2.5", "y_b_2 1.2.3"].map String.toList) = pre ++ ln :: post ∧
      (∀ l ∈ pre, badFactorLine l = false) ∧ badFactorLine ln = true ∧
      (parse ["x_a_1 2.5", "y_b_2 1.2.3"] []).2 = some (.badFloat ⟨facTokOf ln⟩, pre.length + 1) :=
  parse_bad_factor_fails ["x_a_1 2.5", "y_b_2 1.2.3"] []
    ⟨"y_b_2 1.2.3".toList, by decide, by decide⟩

/-- C4: parse raises the structural syntax error exactly on inputs in
which some non-blank non-comment line fails to match the line
pattern.  Both sides of this equation are constantly false — the
pattern is nullable in every component, so no line can fail it — so
the claimed implication holds vacuously, and the substantive half is
the converse: lines that match the pattern never raise this error. -/
theorem parse_structural_error_iff_malformed (lines : List String) (st : List Rec) :
    isNoMatchErr (parse lines st).2 =
      (lines.map String.toList).any
        (fun l => !skipLine l && (lineMatch (pyStrip l)).isNone) := by
  unfold parse
  rw [parse_no_noMatch]
  symm
  rw [List.any_eq_false]
  intro l hl
  simp [lineMatch]

/-- C5 counterexample: parsing the single line trans_c_glu abc does
not fail at all — in particular not with the bad-float error naming
line 1 and token abc — because the factor group matches the empty
string before abc, which the code then treats as an absent factor. -/
theorem parse_trans_c_glu_abc_no_error :
    (parse ["trans_c_glu abc"] []).2 = none ∧
    ¬ (parse ["trans_c_glu abc"] []).2 = some (.badFloat "abc", 1) := by
  decide

/-- C5 amended: parsing an input whose first line is exactly
trans_c_glu abc succeeds, yielding the single record with name
trans_c_glu, absent factor and absent cotransporter; the trailing
text abc is silently ignored. -/
theorem parse_trans_c_glu_abc :
    parse ["trans_c_glu abc"] [] = ([("trans_c_glu", none, none)], none) := by
  decide

/-- C6: parse is additive.  If two inputs each parse successfully
from a fresh (reset) state with record lists r1 and r2, then parsing
the first from any accumulated state s appends exactly r1, and
parsing the second afterwards without a reset returns the full
accumulated sequence s ++ r1 ++ r2 — the concatenation, in order, of
the two fresh results after the prior records. -/
theorem parse_additive (l1 l2 : List String) (r1 r2 : List Rec)
    (h1 : parse l1 [] = (r1, none)) (h2 : parse l2 [] = (r2, none)) (s : List Rec) :
    parse l1 s = (s ++ r1, none) ∧ parse l2 (s ++ r1) = (s ++ r1 ++ r2, none) :=
  ⟨parse_from_any_state l1 r1 h1 s, parse_from_any_state l2 r2 h2 (s ++ r1)⟩

/-- Witness for C6 on two concrete one-line inputs and a nonempty
prior state. -/
theorem parse_additive_witness :
    parse ["a_b_c 2"] [("p", none, none)] =
      ([("p", none, none)] ++ [("a_b_c", some (mkRat 2 1), none)], none) ∧
    parse ["d_e_f"] ([("p", none, none)] ++ [("a_b_c", some (mkRat 2 1), none)]) =
      ([("p", none, none)] ++ [("a_b_c", some (mkRat 2 1), none)] ++ [("d_e_f", none, none)], none) :=
  parse_additive ["a_b_c 2"] ["d_e_f"] [("a_b_c", some (mkRat 2 1), none)]
    [("d_e_f", none, none)] (by decide) (by decide) [("p", none, none)]

/-- C7: when parse fails, the accumulated state is not rolled back:
the returned sequence is the incoming state followed by one record
per successfully parsed line strictly before the failing line, with
no record for the failing line, and the reported line number is the
1-based position of the failing line counting all lines. -/
theorem parse_error_keeps_records (lines : List String) (st res : List Rec)
    (e : LineErr) (k : Nat) (h : parse lines st = (res, some (e, k))) :
    ∃ pre ln post, lines.map String.toList = pre ++ ln :: post ∧
      (∀ l ∈ pre, lineFails l = false) ∧ lineFails ln = true ∧
      res = st ++ pre.filterMap recOfLine ∧ k = pre.length + 1 := by
  rcases parseLines_cases (lines.map String.toList) 1 st with
    ⟨-, he⟩ | ⟨pre, ln, post, e2, hdec, hpre, hstep, heq⟩
  · unfold parse at h
    rw [he] at h
    simpa using congrArg Prod.snd h
  · unfold parse at h
    rw [heq] at h
    have hres := congrArg Prod.fst h
    have herr := congrArg Prod.snd h
    simp only [Option.some.injEq, Prod.mk.injEq] at hres herr
    refine ⟨pre, ln, post, hdec, hpre, by simp [lineFails, hstep], hres.symm, ?_⟩
    omega

/-- Witness for C7: a comment line, a good line and a failing line,
with one prior record in the state. -/
theorem parse_error_keeps_records_witness :
    ∃ pre ln post, (["# c", "g_h_i 1.5", "j_k_l .."].map String.toList) = pre ++ ln :: post ∧
      (∀ l ∈ pre, lineFails l = false) ∧ lineFails ln = true ∧
      [("p", none, none), ("g_h_i", some (mkRat 3 2), none)] =
        [("p", none, none)] ++ pre.filterMap recOfLine ∧ (3 : Nat) = pre.length + 1 :=
  parse_error_keeps_records ["# c", "g_h_i 1.5", "j_k_l .."] [("p", none, none)]
    [("p", none, none), ("g_h_i", some (mkRat 3 2), none)] (.badFloat "..") 3 (by decide)

/-- C8: the line pattern matches every string, so parse never raises
the structural syntax error, and trailing text the pattern does not
consume is silently ignored: the line trans_c_glu abc produces the
record with name trans_c_glu, absent factor and absent cotransporter
instead of an error. -/
theorem line_pattern_total :
    (∀ s : List Char, (lineMatch s).isSome = true) ∧
    (∀ (lines : List (List Char)) (n : Nat) (acc : List Rec),
      isNoMatchErr (parseLines lines n acc).2 = false) ∧
    parse ["trans_c_glu abc"] [] = ([("trans_c_glu", none, none)], none) :=
  ⟨fun _ => rfl, fun lines n acc => parse_no_noMatch lines n acc, by decide⟩

/-- C9: every record parse ever appends has a non-empty name: a
record of the output is either one of the incoming accumulated
records or carries a non-empty name, because a processed line is
stripped and is neither empty nor a comment, so the greedy name group
captures at least its first character. -/
theorem parse_records_nonempty_name (lines : List (List Char)) (n : Nat)
    (acc : List Rec) (r : Rec) (hr : r ∈ (parseLines lines n acc).1) :
    r ∈ acc ∨ r.1 ≠ "" := by
  induction lines generalizing n acc with
  | nil =>
    simp only [parseLines] at hr
    exact .inl hr
  | cons ln rest ih =>
    rcases lineStep_char ln with ⟨-, h⟩ | ⟨-, -, h⟩ | ⟨hskip, -, h⟩
    · simp only [parseLines, h] at hr
      exact ih _ _ hr
    · simp only [parseLines, h] at hr
      exact .inl hr
    · simp only [parseLines, h] at hr
      rcases ih _ _ hr with hin | hne
      · rcases List.mem_append.mp hin with hin | hin
        · exact .inl hin
        · right
          have hr0 := List.mem_singleton.mp hin
          have hnn : pyStrip ln ≠ [] := by
            intro hemp
            simp [skipLine, hemp] at hskip
          rcases hps : pyStrip ln with - | ⟨c, cs⟩
          · exact absurd hps hnn
          · have hcs : pySpace c = false := pyStrip_head_not_space hps
            rw [hr0, hps]
            have : nameTok (c :: cs) = c :: cs.takeWhile nonWS := by
              simp [nameTok, List.takeWhile_cons, nonWS, hcs]
            rw [this]
            exact mk_ne_empty c (cs.takeWhile nonWS)
      · exact .inr hne

/-- Witness for C9 on a one-line input and empty incoming state. -/
theorem parse_records_nonempty_name_witness :
    (("m_n_o", none, none) : Rec) ∈ ([] : List Rec) ∨ ("m_n_o" : String) ≠ "" :=
  parse_records_nonempty_name ["m_n_o".toList] 1 [] ("m_n_o", none, none) (by decide)

/-! Supporting lemmas about split_by_type. -/

theorem lookupIdx_enumT_not_mem {t : String} (T : List String) :
    ∀ (n : Nat), t ∉ T → lookupIdx t (enumT n T) = none := by
  induction T with
  | nil =>
    intro n h
    rfl
  | cons s ts ih =>
    intro n h
    have hst : ¬ (s = t) := by
      intro hh
      subst hh
      exact h (List.mem_cons_self _ _)
    simp only [enumT, lookupIdx, hst, if_false]
    exact ih (n + 1) (fun hh => h (List.mem_cons_of_mem s hh))

theorem lookupIdx_enumT_split {t : String} (T₁ : List String) :
    ∀ (T₂ : List String) (n : Nat), t ∉ T₁ →
    lookupIdx t (enumT n (T₁ ++ t :: T₂)) = some (n + T₁.length) := by
  induction T₁ with
  | nil =>
    intro T₂ n h
    simp [enumT, lookupIdx]
  | cons s ts ih =>
    intro T₂ n h
    have hst : ¬ (s = t) := by
      intro hh
      subst hh
      exact h (List.mem_cons_self _ _)
    simp only [List.cons_append, enumT, lookupIdx, hst, if_false, List.append_eq]
    rw [ih T₂ (n + 1) (fun hh => h (List.mem_cons_of_mem s hh))]
    have h3 : n + 1 + ts.length = n + (s :: ts).length := by
      simp only [List.length_cons]
      omega
    rw [h3]

theorem enumT_snoc (t : String) (T : List String) : ∀ (n : Nat),
    enumT n (T ++ [t]) = enumT n T ++ [(t, n + T.length)] := by
  induction T with
  | nil =>
    intro n
    simp [enumT]
  | cons s ts ih =>
    intro n
    simp only [List.cons_append, enumT, List.append_eq, ih (n + 1)]
    have h3 : n + 1 + ts.length = n + (s :: ts).length := by
      simp only [List.length_cons]
      omega
    rw [h3]

theorem addToGroup_at (x : GRec) (l₁ : List (List GRec)) :
    ∀ (g : List GRec) (l₂ : List (List GRec)),
    addToGroup (l₁ ++ g :: l₂) l₁.length x = l₁ ++ (g ++ [x]) :: l₂ := by
  induction l₁ with
  | nil =>
    intro g l₂
    rfl
  | cons a l ih =>
    intro g l₂
    simp only [List.cons_append, List.length_cons, addToGroup, List.append_eq]
    rw [ih g l₂]

theorem list_split_at {α : Type} (lol : List α) : ∀ (n : Nat), n < lol.length →
    ∃ l₁ g l₂, lol = l₁ ++ g :: l₂ ∧ l₁.length = n := by
  induction lol with
  | nil =>
    intro n h
    simp at h
  | cons a l ih =>
    intro n h
    cases n with
    | zero => exact ⟨[], a, l, rfl, rfl⟩
    | succ m =>
      have hm : m < l.length := by
        simp only [List.length_cons] at h
        omega
      obtain ⟨l₁, g, l₂, rfl, hlen⟩ := ih m hm
      exact ⟨a :: l₁, g, l₂, by rw [List.cons_append], by simp [hlen]⟩

theorem groupOf_cons (e : Rec) (l : List Rec) (t : String) :
    groupOf (e :: l) t =
      if typKey e = some t then (t, e) :: groupOf l t else groupOf l t := by
  by_cases h : typKey e = some t <;> simp [groupOf, List.filter_cons, h]

theorem extGroups_nil : ∀ (T : List String) (lol : List (List GRec)),
    lol.length = T.length → extGroups T lol [] = lol := by
  intro T
  induction T with
  | nil =>
    intro lol h
    cases lol with
    | nil => rfl
    | cons g gs => simp at h
  | cons t ts ih =>
    intro lol h
    cases lol with
    | nil => simp at h
    | cons g gs =>
      simp only [List.length_cons] at h
      have h2 : gs.length = ts.length := by omega
      simp [extGroups, groupOf, ih gs h2]

theorem extGroups_congr {l₁ l₂ : List Rec} : ∀ (T : List String) (lol : List (List GRec)),
    (∀ t ∈ T, groupOf l₁ t = groupOf l₂ t) → extGroups T lol l₁ = extGroups T lol l₂ := by
  intro T
  induction T with
  | nil =>
    intro lol h
    cases lol with
    | nil => rfl
    | cons g gs => rfl
  | cons t ts ih =>
    intro lol h
    cases lol with
    | nil => rfl
    | cons g gs =>
      simp only [extGroups]
      rw [h t (List.mem_cons_self _ _), ih gs (fun s hs => h s (List.mem_cons_of_mem _ hs))]

theorem extGroups_split (l : List Rec) (t : String) (g : List GRec) (T₁ : List String) :
    ∀ (l₁ : List (List GRec)) (T₂ : List String) (l₂ : List (List GRec)),
    l₁.length = T₁.length →
    extGroups (T₁ ++ t :: T₂) (l₁ ++ g :: l₂) l =
      extGroups T₁ l₁ l ++ (g ++ groupOf l t) :: extGroups T₂ l₂ l := by
  induction T₁ with
  | nil =>
    intro l₁ T₂ l₂ h
    cases l₁ with
    | nil => rfl
    | cons g1 gs => simp at h
  | cons s ts ih =>
    intro l₁ T₂ l₂ h
    cases l₁ with
    | nil => simp at h
    | cons g1 gs =>
      simp only [List.length_cons] at h
      have h2 : gs.length = ts.length := by omega
      simp only [List.cons_append, extGroups, List.append_eq]
      rw [ih gs T₂ l₂ h2]

theorem newTypes_seen_congr : ∀ (l : List Rec) (s₁ s₂ : List String),
    (∀ x, x ∈ s₁ ↔ x ∈ s₂) → newTypes s₁ l = newTypes s₂ l := by
  intro l
  induction l with
  | nil =>
    intro s₁ s₂ h
    rfl
  | cons e rest ih =>
    intro s₁ s₂ h
    cases ht : typKey e with
    | none => simp only [newTypes, ht, ih s₁ s₂ h]
    | some t =>
      by_cases hm : t ∈ s₁
      · simp only [newTypes, ht, if_pos hm, if_pos ((h t).mp hm), ih s₁ s₂ h]
      · have hm2 : t ∉ s₂ := fun hh => hm ((h t).mpr hh)
        simp only [newTypes, ht, if_neg hm, if_neg hm2]
        rw [ih (t :: s₁) (t :: s₂) (fun x => by simp [h x])]

theorem newTypes_not_mem_seen : ∀ (l : List Rec) (seen : List String) (t : String),
    t ∈ newTypes seen l → t ∉ seen := by
  intro l
  induction l with
  | nil =>
    intro seen t h
    simp [newTypes] at h
  | cons e rest ih =>
    intro seen t h
    cases ht : typKey e with
    | none =>
      simp only [newTypes, ht] at h
      exact ih seen t h
    | some t2 =>
      simp only [newTypes, ht] at h
      by_cases hm : t2 ∈ seen
      · rw [if_pos hm] at h
        exact ih seen t h
      · rw [if_neg hm] at h
        rcases List.mem_cons.mp h with rfl | h
        · exact hm
        · have h3 := ih (t2 :: seen) t h
          exact fun hh => h3 (List.mem_cons_of_mem _ hh)

/-- The loop invariant of split_by_type: started from a state whose
dictionary enumerates the types T of the already-built groups (in
group order, without duplicates), processing a remainder of
well-formed records extends each existing group with its records, in
order, and appends one new group per newly seen type, in first-seen
order. -/
theorem splitAux_general : ∀ (l : List Rec) (T : List String) (lol : List (List GRec)),
    (∀ e ∈ l, (typKey e).isSome = true) → T.Nodup → lol.length = T.length →
    splitAux l (enumT 0 T) lol =
      .ok (extGroups T lol l ++ (newTypes T l).map (groupOf l)) := by
  intro l
  induction l with
  | nil =>
    intro T lol hwf hnd hlen
    simp [splitAux, newTypes, extGroups_nil T lol hlen]
  | cons e rest ih =>
    intro T lol hwf hnd hlen
    have hwfe : (typKey e).isSome = true := hwf e (List.mem_cons_self _ _)
    obtain ⟨t, ht⟩ := Option.isSome_iff_exists.mp hwfe
    have hwfr : ∀ x ∈ rest, (typKey x).isSome = true :=
      fun x hx => hwf x (List.mem_cons_of_mem _ hx)
    have hce : ∀ s : String, s ≠ t → groupOf (e :: rest) s = groupOf rest s := by
      intro s hs
      rw [groupOf_cons, if_neg]
      intro hh
      rw [ht] at hh
      exact hs (Option.some.inj hh).symm
    have hgt : groupOf (e :: rest) t = (t, e) :: groupOf rest t := by
      rw [groupOf_cons, if_pos ht]
    by_cases hmem : t ∈ T
    · obtain ⟨T₁, T₂, hT⟩ := List.append_of_mem hmem
      subst hT
      have hmid := List.nodup_cons.mp (List.nodup_middle.mp hnd)
      have ht1 : t ∉ T₁ := fun hh => hmid.1 (List.mem_append_left _ hh)
      have hlk : lookupIdx t (enumT 0 (T₁ ++ t :: T₂)) = some T₁.length := by
        have h0 := lookupIdx_enumT_split T₁ T₂ 0 ht1
        simpa using h0
      have hidx : T₁.length < lol.length := by
        rw [hlen]
        simp only [List.length_append, List.length_cons]
        omega
      obtain ⟨l₁, g, l₂, hlol, hl1⟩ := list_split_at lol T₁.length hidx
      subst hlol
      have haddr : addToGroup (l₁ ++ g :: l₂) T₁.length (t, e) =
          l₁ ++ (g ++ [(t, e)]) :: l₂ := by
        rw [← hl1, addToGroup_at]
      have hstep : splitAux (e :: rest) (enumT 0 (T₁ ++ t :: T₂)) (l₁ ++ g :: l₂) =
          splitAux rest (enumT 0 (T₁ ++ t :: T₂)) (l₁ ++ (g ++ [(t, e)]) :: l₂) := by
        simp [splitAux, show nameMatch e.1 = some t from ht, hlk, haddr]
      have hlen2 : (l₁ ++ (g ++ [(t, e)]) :: l₂).length = (T₁ ++ t :: T₂).length := by
        simpa using hlen
      rw [hstep, ih (T₁ ++ t :: T₂) _ hwfr hnd hlen2]
      congr 1
      have hnt : newTypes (T₁ ++ t :: T₂) (e :: rest) =
          newTypes (T₁ ++ t :: T₂) rest := by
        simp only [newTypes, ht, if_pos hmem]
      rw [extGroups_split rest t (g ++ [(t, e)]) T₁ l₁ T₂ l₂ hl1,
        extGroups_split (e :: rest) t g T₁ l₁ T₂ l₂ hl1, hnt, hgt,
        extGroups_congr T₁ l₁ (fun s hs => hce s (fun hh => ht1 (hh ▸ hs))),
        extGroups_congr T₂ l₂ (fun s hs => hce s (fun hh => hmid.1 (hh ▸ List.mem_append_right _ hs))),
        List.map_congr_left (fun s hs => hce s
          (fun hh => (newTypes_not_mem_seen rest (T₁ ++ t :: T₂) s hs)
            (hh ▸ List.mem_append_right _ (List.mem_cons_self _ _))))]
      simp
    · have hlk : lookupIdx t (enumT 0 T) = none := lookupIdx_enumT_not_mem T 0 hmem
      have hstep : splitAux (e :: rest) (enumT 0 T) lol =
          splitAux rest (enumT 0 T ++ [(t, lol.length)]) (lol ++ [[(t, e)]]) := by
        simp [splitAux, show nameMatch e.1 = some t from ht, hlk]
      have henum : enumT 0 T ++ [(t, lol.length)] = enumT 0 (T ++ [t]) := by
        rw [enumT_snoc t T 0, hlen, Nat.zero_add]
      have hnd2 : (T ++ [t]).Nodup := by
        rw [List.nodup_append]
        refine ⟨hnd, List.nodup_singleton t, ?_⟩
        intro a ha hb
        rw [List.mem_singleton.mp hb] at ha
        exact hmem ha
      have hlen2 : (lol ++ [[(t, e)]]).length = (T ++ [t]).length := by
        simp [hlen]
      rw [hstep, henum, ih (T ++ [t]) _ hwfr hnd2 hlen2]
      congr 1
      have hnt : newTypes T (e :: rest) = t :: newTypes (t :: T) rest := by
        simp only [newTypes, ht, if_neg hmem]
      have hseen : newTypes (T ++ [t]) rest = newTypes (t :: T) rest :=
        newTypes_seen_congr rest (T ++ [t]) (t :: T) (fun x => by
          simp [List.mem_append, or_comm])
      rw [extGroups_split rest t [(t, e)] T lol [] [] hlen, hnt, hseen,
        extGroups_congr T lol (fun s hs => hce s (fun hh => hmem (hh ▸ hs))),
        List.map_cons, hgt,
        List.map_congr_left (fun s hs => hce s
          (fun hh => (newTypes_not_mem_seen rest (t :: T) s hs)
            (hh ▸ List.mem_cons_self _ _)))]
      simp [extGroups]

/-- On a well-formed record list, split_by_type succeeds and returns
the grouping the specification describes. -/
theorem split_eq_spec (l : List Rec) (h : ∀ e ∈ l, (typKey e).isSome = true) :
    split_by_type l = .ok (groupByTypeSpec l) := by
  have h0 := splitAux_general l [] [] h List.nodup_nil rfl
  simpa [split_by_type, groupByTypeSpec, extGroups, enumT] using h0

/-- C1: group_by_type (split_by_type) is order-preserving: on every
well-formed record list it succeeds and returns exactly the grouping
described by the specification — one group per distinct type code, in
the order each code is first encountered, each group holding the
records of that type in input order. -/
theorem split_by_type_spec (l : List Rec)
    (h : ∀ e ∈ l, (typKey e).isSome = true) :
    split_by_type l = .ok (groupByTypeSpec l) :=
  split_eq_spec l h

/-- Witness for C1 on the three-record example of the claim: records
of types X, Y, X yield the groups [[A, C], [B]]. -/
theorem split_by_type_spec_witness :
    split_by_type [("a_X_1", none, none), ("b_Y_2", none, none), ("c_X_3", none, none)] =
      .ok (groupByTypeSpec
        [("a_X_1", none, none), ("b_Y_2", none, none), ("c_X_3", none, none)]) :=
  split_by_type_spec _ (by decide)

example : groupByTypeSpec
    [("a_X_1", none, none), ("b_Y_2", none, none), ("c_X_3", none, none)] =
    [[("X", ("a_X_1", none, none)), ("X", ("c_X_3", none, none))],
     [("Y", ("b_Y_2", none, none))]] := by
  decide

/-- The type codes newTypes emits are distinct. -/
theorem newTypes_nodup : ∀ (l : List Rec) (seen : List String),
    (newTypes seen l).Nodup := by
  intro l
  induction l with
  | nil =>
    intro seen
    exact List.nodup_nil
  | cons e rest ih =>
    intro seen
    cases ht : typKey e with
    | none =>
      simp only [newTypes, ht]
      exact ih seen
    | some t =>
      by_cases hm : t ∈ seen
      · simp only [newTypes, ht, if_pos hm]
        exact ih seen
      · simp only [newTypes, ht, if_neg hm]
        rw [List.nodup_cons]
        exact ⟨fun hh => (newTypes_not_mem_seen rest (t :: seen) t hh)
          (List.mem_cons_self _ _), ih (t :: seen)⟩

/-- Every type code occurring in the list is in seen or emitted. -/
theorem newTypes_covers : ∀ (l : List Rec) (seen : List String) (e : Rec) (t : String),
    e ∈ l → typKey e = some t → t ∈ seen ∨ t ∈ newTypes seen l := by
  intro l
  induction l with
  | nil =>
    intro seen e t h
    simp at h
  | cons e2 rest ih =>
    intro seen e t hm ht
    rcases List.mem_cons.mp hm with rfl | hm
    · by_cases hs : t ∈ seen
      · exact .inl hs
      · right
        simp only [newTypes, ht, if_neg hs]
        exact List.mem_cons_self _ _
    · cases ht2 : typKey e2 with
      | none =>
        simp only [newTypes, ht2]
        exact ih seen e t hm ht
      | some t2 =>
        by_cases hs : t2 ∈ seen
        · simp only [newTypes, ht2, if_pos hs]
          exact ih seen e t hm ht
        · simp only [newTypes, ht2, if_neg hs]
          rcases ih (t2 :: seen) e t hm ht with hseen | hnew
          · rcases List.mem_cons.mp hseen with rfl | hseen
            · exact .inr (List.mem_cons_self _ _)
            · exact .inl hseen
          · exact .inr (List.mem_cons_of_mem _ hnew)

/-- Concatenating the filters of a list by distinct covering type
codes permutes the list. -/
theorem perm_join_filters : ∀ (ts : List String) (l : List Rec),
    ts.Nodup → (∀ e ∈ l, ∃ t ∈ ts, typKey e = some t) →
    List.Perm
      (ts.map (fun t => l.filter (fun e => decide (typKey e = some t)))).flatten l := by
  intro ts
  induction ts with
  | nil =>
    intro l hnd hcov
    cases l with
    | nil => simp
    | cons e rest =>
      obtain ⟨t, ht, -⟩ := hcov e (List.mem_cons_self _ _)
      simp at ht
  | cons t ts ih =>
    intro l hnd hcov
    have hnd2 := List.nodup_cons.mp hnd
    have hmapc : ∀ s ∈ ts, l.filter (fun e => decide (typKey e = some s)) =
        (l.filter (fun e => !decide (typKey e = some t))).filter
          (fun e => decide (typKey e = some s)) := by
      intro s hs
      rw [List.filter_filter]
      apply List.filter_congr
      intro e he
      by_cases h1 : typKey e = some s
      · have h2 : ¬ (typKey e = some t) := by
          rw [h1]
          intro hh
          exact hnd2.1 ((Option.some.inj hh) ▸ hs)
        have hst : ¬ (s = t) := fun hh => h2 (hh ▸ h1)
        simp [h1, hst]
      · simp [h1]
    have hcov2 : ∀ e ∈ l.filter (fun e => !decide (typKey e = some t)),
        ∃ s ∈ ts, typKey e = some s := by
      intro e he
      have hm := List.mem_of_mem_filter he
      have hf := List.of_mem_filter he
      obtain ⟨s, hs, hts⟩ := hcov e hm
      rcases List.mem_cons.mp hs with rfl | hs
      · exfalso
        simp [hts] at hf
      · exact ⟨s, hs, hts⟩
    have hperm2 := ih (l.filter (fun e => !decide (typKey e = some t))) hnd2.2 hcov2
    rw [List.map_cons, List.flatten_cons, List.map_congr_left hmapc]
    exact (hperm2.append_left _).trans (List.filter_append_perm _ l)

/-- C2: on every well-formed input, the grouped output contains each
input record exactly once with its fields unchanged (dropping the
type prefixes of the flattened output permutes the input), every
grouped record is prefixed with exactly the type code its own name
derives, and any two records of one group share that code. -/
theorem split_by_type_partition (l : List Rec) (gs : List (List GRec))
    (hwf : ∀ e ∈ l, (typKey e).isSome = true)
    (h : split_by_type l = .ok gs) :
    List.Perm (gs.flatten.map Prod.snd) l ∧
    (∀ g ∈ gs, ∀ x ∈ g, typKey x.2 = some x.1) ∧
    (∀ g ∈ gs, ∀ x ∈ g, ∀ y ∈ g, x.1 = y.1) := by
  have hgs : gs = groupByTypeSpec l := by
    have h2 := split_eq_spec l hwf
    rw [h] at h2
    exact Except.ok.inj h2
  subst hgs
  refine ⟨?_, ?_, ?_⟩
  · have hjm : (groupByTypeSpec l).flatten.map Prod.snd =
        ((newTypes [] l).map
          (fun t => l.filter (fun e => decide (typKey e = some t)))).flatten := by
      rw [groupByTypeSpec, List.map_flatten, List.map_map]
      congr 1
      apply List.map_congr_left
      intro t ht
      simp [groupOf, List.map_map, Function.comp_def]
    rw [hjm]
    refine perm_join_filters (newTypes [] l) l (newTypes_nodup l []) ?_
    intro e he
    obtain ⟨t, ht⟩ := Option.isSome_iff_exists.mp (hwf e he)
    rcases newTypes_covers l [] e t he ht with hseen | hnew
    · simp at hseen
    · exact ⟨t, hnew, ht⟩
  · intro g hg x hx
    rw [groupByTypeSpec] at hg
    obtain ⟨t, -, rfl⟩ := List.mem_map.mp hg
    obtain ⟨e, hef, rfl⟩ := List.mem_map.mp hx
    have hfe := List.of_mem_filter hef
    simpa using hfe
  · intro g hg x hx y hy
    rw [groupByTypeSpec] at hg
    obtain ⟨t, -, rfl⟩ := List.mem_map.mp hg
    obtain ⟨e, -, rfl⟩ := List.mem_map.mp hx
    obtain ⟨e2, -, rfl⟩ := List.mem_map.mp hy
    rfl

/-- Witness for C2 on the three-record example, with its concrete
grouped output. -/
theorem split_by_type_partition_witness :
    List.Perm
      (([[("X", ("a_X_1", none, none)), ("X", ("c_X_3", none, none))],
         [("Y", ("b_Y_2", none, none))]] : List (List GRec)).flatten.map Prod.snd)
      [("a_X_1", none, none), ("b_Y_2", none, none), ("c_X_3", none, none)] ∧
    (∀ g ∈ ([[("X", ("a_X_1", none, none)), ("X", ("c_X_3", none, none))],
         [("Y", ("b_Y_2", none, none))]] : List (List GRec)),
      ∀ x ∈ g, typKey x.2 = some x.1) ∧
    (∀ g ∈ ([[("X", ("a_X_1", none, none)), ("X", ("c_X_3", none, none))],
         [("Y", ("b_Y_2", none, none))]] : List (List GRec)),
      ∀ x ∈ g, ∀ y ∈ g, x.1 = y.1) :=
  split_by_type_partition
    [("a_X_1", none, none), ("b_Y_2", none, none), ("c_X_3", none, none)]
    [[("X", ("a_X_1", none, none)), ("X", ("c_X_3", none, none))],
     [("Y", ("b_Y_2", none, none))]]
    (by decide) (by decide)

/-- The run of characters other than a is dropped entirely, or up to
an occurrence of a. -/
theorem dropWhile_ne_head (a : Char) (l : List Char) :
    l.dropWhile (fun c => c != a) = [] ∨
    ∃ r, l.dropWhile (fun c => c != a) = a :: r := by
  cases hd : l.dropWhile (fun c => c != a) with
  | nil => exact .inl rfl
  | cons c r =>
    have hf := dropWhile_head_false hd
    have hca : c = a := by simpa using hf
    subst hca
    exact .inr ⟨r, rfl⟩

/-- Dropping characters other than a does not change how often a
occurs. -/
theorem count_dropWhile_ne (a : Char) : ∀ (l : List Char),
    (l.dropWhile (fun c => c != a)).count a = l.count a := by
  intro l
  induction l with
  | nil => rfl
  | cons c cs ih =>
    by_cases hc : c = a
    · subst hc
      simp [List.dropWhile_cons]
    · have hne : ((c != a) = true) := by simp [hc]
      rw [List.dropWhile_cons, if_pos hne, ih, List.count_cons]
      simp [hc]

/-- The name pattern fails exactly on names with fewer than two
underscores. -/
theorem nameMatch_none_iff (s : String) :
    nameMatch s = none ↔ s.toList.count '_' < 2 := by
  have hc := count_dropWhile_ne '_' s.toList
  rcases dropWhile_ne_head '_' s.toList with hd | ⟨r2, hd⟩
  · rw [hd] at hc
    simp only [List.count_nil] at hc
    simp only [nameMatch, hd]
    simp at hc ⊢
    omega
  · rw [hd] at hc
    have hcr : s.toList.count '_' = r2.count '_' + 1 := by
      rw [← hc]
      simp [List.count_cons]
    have hc2 := count_dropWhile_ne '_' r2
    rcases dropWhile_ne_head '_' r2 with hd2 | ⟨r3, hd2⟩
    · rw [hd2] at hc2
      simp only [List.count_nil] at hc2
      simp only [nameMatch, hd, hd2]
      simp at hcr ⊢
      omega
    · rw [hd2] at hc2
      have hcr2 : r2.count '_' = r3.count '_' + 1 := by
        rw [← hc2]
        simp [List.count_cons]
      simp only [nameMatch, hd, hd2]
      simp at hcr ⊢
      omega

/-- On a name with at least two underscores, the captured type code
is the text strictly between the first and the second underscore. -/
theorem nameMatch_some_between (s : String) (h : 2 ≤ s.toList.count '_') :
    nameMatch s = some (betweenUnderscores s) := by
  have hc := count_dropWhile_ne '_' s.toList
  rcases dropWhile_ne_head '_' s.toList with hd | ⟨r2, hd⟩
  · exfalso
    rw [hd] at hc
    simp only [List.count_nil] at hc
    omega
  · rw [hd] at hc
    have hcr : s.toList.count '_' = r2.count '_' + 1 := by
      rw [← hc]
      simp [List.count_cons]
    have hc2 := count_dropWhile_ne '_' r2
    rcases dropWhile_ne_head '_' r2 with hd2 | ⟨r3, hd2⟩
    · exfalso
      rw [hd2] at hc2
      simp only [List.count_nil] at hc2
      omega
    · simp only [nameMatch, betweenUnderscores, hd, hd2]
      rfl

/-- Whatever the dictionary and group state, the loop of
split_by_type stops at the first record whose name the name pattern
rejects and reports the name of that record. -/
theorem splitAux_error : ∀ (l : List Rec) (d : List (String × Nat)) (lol : List (List GRec)),
    (∃ e ∈ l, nameMatch e.1 = none) →
    ∃ pre bad post, l = pre ++ bad :: post ∧
      (∀ x ∈ pre, (typKey x).isSome = true) ∧ nameMatch bad.1 = none ∧
      splitAux l d lol = .error bad.1 := by
  intro l
  induction l with
  | nil =>
    intro d lol h
    simp at h
  | cons e rest ih =>
    intro d lol h
    cases hm : nameMatch e.1 with
    | none =>
      refine ⟨[], e, rest, rfl, by simp, hm, ?_⟩
      simp [splitAux, hm]
    | some t =>
      have hrest : ∃ x ∈ rest, nameMatch x.1 = none := by
        rcases h with ⟨x, hx, hxn⟩
        rcases List.mem_cons.mp hx with rfl | hx
        · rw [hm] at hxn
          cases hxn
        · exact ⟨x, hx, hxn⟩
      cases hlk : lookupIdx t d with
      | some i =>
        obtain ⟨pre, bad, post, hdec, hpre, hbn, herr⟩ := ih d (addToGroup lol i (t, e)) hrest
        refine ⟨e :: pre, bad, post, by rw [hdec, List.cons_append], ?_, hbn, ?_⟩
        · intro x hx
          rcases List.mem_cons.mp hx with rfl | hx
          · simp [typKey, hm]
          · exact hpre x hx
        · simp [splitAux, hm, hlk, herr]
      | none =>
        obtain ⟨pre, bad, post, hdec, hpre, hbn, herr⟩ :=
          ih (d ++ [(t, lol.length)]) (lol ++ [[(t, e)]]) hrest
        refine ⟨e :: pre, bad, post, by rw [hdec, List.cons_append], ?_, hbn, ?_⟩
        · intro x hx
          rcases List.mem_cons.mp hx with rfl | hx
          · simp [typKey, hm]
          · exact hpre x hx
        · simp [splitAux, hm, hlk, herr]

/-- C10: the name grammar needs a second underscore after the type
code: it rejects exactly the names with fewer than two underscores
(so a name like a_b, though it has two underscore-delimited segments,
is rejected), the derived type code of an accepted name is exactly
the text strictly between its first and second underscore, and when
a record list contains a rejected name, split_by_type fails with the
error carrying the name of the first such record. -/
theorem name_pattern_two_underscores :
    (∀ s : String, nameMatch s = none ↔ s.toList.count '_' < 2) ∧
    (∀ s : String, 2 ≤ s.toList.count '_' →
      nameMatch s = some (betweenUnderscores s)) ∧
    (∀ (l : List Rec) (e : Rec), e ∈ l → e.1.toList.count '_' < 2 →
      ∃ pre bad post, l = pre ++ bad :: post ∧
        (∀ x ∈ pre, 2 ≤ x.1.toList.count '_') ∧
        bad.1.toList.count '_' < 2 ∧
        split_by_type l = .error bad.1) := by
  refine ⟨nameMatch_none_iff, nameMatch_some_between, ?_⟩
  intro l e hmem hcnt
  have hex : ∃ x ∈ l, nameMatch x.1 = none :=
    ⟨e, hmem, (nameMatch_none_iff e.1).mpr hcnt⟩
  obtain ⟨pre, bad, post, hdec, hpre, hbn, herr⟩ := splitAux_error l [] [] hex
  refine ⟨pre, bad, post, hdec, ?_, (nameMatch_none_iff bad.1).mp hbn, herr⟩
  intro x hx
  have hw := hpre x hx
  by_contra hca
  have hnone := (nameMatch_none_iff x.1).mpr (by omega)
  simp [typKey, hnone] at hw

example : split_by_type [("x_c_1", none, none), ("a_b", none, none), ("noUnderscore", none, none)] =
    .error "a_b" := by
  decide
